import Mathlib

/-!
Verification of the mAP evaluation module (`evaluation_sls.py`).

The module converts point-wise binary anomaly labels into ground-truth
windows, scores detected anomaly windows against them with a generalized
Intersection-over-Union, builds ranked precision/recall points, and computes
an 11-point interpolated average precision, averaged over several IoU
thresholds.

Modelling conventions:
* Timestamps are rationals measured in minutes, so that
  `(t1 - t2).total_seconds()/60` becomes plain subtraction `t1 - t2`.
* Python values that may be either a raw integer or a timestamp (the
  `start = 0` initial accumulator and the `(start, i)` closing index of
  `label_anomaly_windows`) are modelled by the sum type `PyVal`.
  Comparing or subtracting a timestamp and a raw integer raises a
  `TypeError` in Python; such operations return `none` here.
* Fallible computations return `Option`: `none` models a raised exception
  (`TypeError` on mixed comparisons, `ZeroDivisionError` on division by
  zero).  Float arithmetic is modelled exactly over `ℚ`.
* A pandas label series is a list of (timestamp, label) pairs; `label.values`
  and `label.index` become the two projections.
* The detection table rows carry parsed `start`/`end` timestamps; the
  anomaly-score column is only used upstream for sorting and is not part of
  the scored data.
-/

/-- Runtime value of the window endpoints in `label_anomaly_windows`: either a
raw Python integer (the initial accumulator `start = 0`, or the closing index
`i`) or a timestamp from the series index. -/
inductive PyVal where
  | int (n : ℤ)
  | time (t : ℚ)
deriving DecidableEq, Repr

/-- Python comparison `a <= b`; `none` models the `TypeError` raised when an
integer is compared with a timestamp. -/
def pyLE : PyVal → PyVal → Option Bool
  | .int a, .int b => some (decide (a ≤ b))
  | .time a, .time b => some (decide (a ≤ b))
  | _, _ => none

/-- Python comparison `a < b`; `none` models the mixed-type `TypeError`. -/
def pyLT : PyVal → PyVal → Option Bool
  | .int a, .int b => some (decide (a < b))
  | .time a, .time b => some (decide (a < b))
  | _, _ => none

/-- Python comparison `a >= b`. -/
def pyGE (a b : PyVal) : Option Bool := pyLE b a

/-- Python comparison `a > b`. -/
def pyGT (a b : PyVal) : Option Bool := pyLT b a

/-- Helper `t_max` from `calculate_IOU`: `t1 if t1 > t2 else t2`. -/
def t_max (t1 t2 : PyVal) : Option PyVal :=
  (pyGT t1 t2).map (fun c => if c then t1 else t2)

/-- Helper `t_min` from `calculate_IOU`: `t1 if t1 < t2 else t2`. -/
def t_min (t1 t2 : PyVal) : Option PyVal :=
  (pyLT t1 t2).map (fun c => if c then t1 else t2)

/-- Duration in minutes, `(a - b).total_seconds()/60`; defined only when both
operands are timestamps (otherwise the Python subtraction raises). -/
def durMin : PyVal → PyVal → Option ℚ
  | .time a, .time b => some (a - b)
  | _, _ => none

/-- Short-circuiting Python `and` over fallible boolean expressions. -/
def pyAnd (a : Option Bool) (b : Unit → Option Bool) : Option Bool :=
  a.bind (fun x => if x then b () else some false)

/-- One row of the detection table produced by the external detector, with the
`start` and `end` timestamp columns already parsed (`stt` in the source). -/
structure Window where
  start : ℚ
  «end» : ℚ
deriving DecidableEq, Repr

/-- Loop body of `label_anomaly_windows`: the state is the pair of the mutable
`start` accumulator and the `labeled_anomaly_window` list, `i` is the loop
index running over `range(1, len(label))`. -/
def lawStep (tss : List ℚ) (lbs : List ℕ) (s : PyVal × List (PyVal × PyVal))
    (i : ℕ) : PyVal × List (PyVal × PyVal) :=
  if lbs.getD i 0 = 1 ∧ lbs.getD (i - 1) 0 = 0 then
    (.time (tss.getD i 0), s.2)
  else if lbs.getD (i - 1) 0 = 1 ∧ lbs.getD i 0 = 0 then
    (s.1, s.2 ++ [(s.1, .time (tss.getD (i - 1) 0))])
  else if i = lbs.length - 1 ∧ lbs.getD i 0 = 1 then
    (s.1, s.2 ++ [(s.1, .int (i : ℤ))])
  else s

/-- Converts the point-wise anomaly labels into a list of windows.  The input
series is a list of (timestamp, label) pairs; `label.values` and `label.index`
are its two projections.  The scan starts at index 1 and the `start`
accumulator is initialised to the raw integer `0`. -/
def label_anomaly_windows (label : List (ℚ × ℕ)) : List (PyVal × PyVal) :=
  ((List.range' 1 (label.length - 1)).foldl
    (lawStep (label.map Prod.fst) (label.map Prod.snd)) (.int 0, [])).2

/-- Body of the inner loop of `calculate_IOU` for one (detection, ground
truth) pair: outer `none` is a raised exception; `some none` means no case
matched (zero contribution, index not recorded); `some (some c)` means one of
the three cases matched with ratio `c` and the index is recorded. -/
def pairContrib (start «end» : ℚ) (g0 g1 : PyVal) : Option (Option ℚ) := do
  let c1 ← pyAnd (pyLE (.time start) g0) (fun _ => pyGE (.time «end») g0)
  if c1 then
    let m ← t_min g1 (.time «end»)
    let ov ← durMin m g0
    let mx ← t_max g1 (.time «end»)
    let un ← durMin mx (.time start)
    if 1 + un = 0 then none else some (some ((1 + ov) / (1 + un)))
  else
    let c2 ← pyAnd (pyGE (.time start) g0) (fun _ => pyLE (.time «end») g1)
    if c2 then
      let ov ← durMin (.time «end») (.time start)
      let un ← durMin g1 g0
      if 1 + un = 0 then none else some (some ((1 + ov) / (1 + un)))
    else
      let c3 ← pyAnd (pyLE (.time start) g1) (fun _ => pyGE (.time «end») g1)
      if c3 then
        let ov ← durMin g1 (.time start)
        let un ← durMin (.time «end») g0
        if 1 + un = 0 then none else some (some ((1 + ov) / (1 + un)))
      else some none

/-- Inner loop of `calculate_IOU` for one detection window: accumulates
`iou_i` and the `region` list over the ground-truth windows, `j` being the
running ground-truth index. -/
def detLoop (s e : ℚ) : List (PyVal × PyVal) → ℕ → ℚ → List ℕ →
    Option (ℚ × List ℕ)
  | [], _, iou_i, region => some (iou_i, region)
  | g :: rest, j, iou_i, region =>
    match pairContrib s e g.1 g.2 with
    | none => none
    | some none => detLoop s e rest (j + 1) iou_i region
    | some (some r) => detLoop s e rest (j + 1) (iou_i + r) (region ++ [j])

/-- Calculates the generalized Intersection over Union of each detection
window against all ground-truth windows, together with the list of
ground-truth indices each detection overlaps. -/
def calculate_IOU : List Window → List (PyVal × PyVal) →
    Option (List ℚ × List (List ℕ))
  | [], _ => some ([], [])
  | a :: rest, label_window =>
    match detLoop a.start a.«end» label_window 0 0 [] with
    | none => none
    | some (iou_i, region) =>
      match calculate_IOU rest label_window with
      | none => none
      | some (iou, anomaly_region) => some (iou_i :: iou, region :: anomaly_region)

/-- Deduplicating append of `average_precision_sls`: each element of `ws` is
appended to `region` unless already present. -/
def addRegion (region : List ℕ) (ws : List ℕ) : List ℕ :=
  ws.foldl (fun r w => if w ∈ r then r else r ++ [w]) region

/-- One step of the per-prefix scan of `average_precision_sls`: given the
running (tp, region) pair and one (iou value, covered list) pair, bump tp and
merge the covered list when the iou value exceeds the threshold. -/
def tpStep (iou_threshold : ℚ) (acc : ℕ × List ℕ) (p : ℚ × List ℕ) :
    ℕ × List ℕ :=
  if p.1 > iou_threshold then (acc.1 + 1, addRegion acc.2 p.2) else acc

/-- The (tp, region) pair obtained by scanning a prefix of the ranked
(iou value, covered list) pairs. -/
def tpRegion (iou_threshold : ℚ) (pairs : List (ℚ × List ℕ)) : ℕ × List ℕ :=
  pairs.foldl (tpStep iou_threshold) (0, [])

/-- The (precision, recall) point of `average_precision_sls` after considering
the top `i` detections; `pairs` is the ranked list of (iou value, covered
list) pairs and `nGT` is `len(labeled_data)`.  Division by zero (Python
`ZeroDivisionError`) yields `none`. -/
def prPoint (pairs : List (ℚ × List ℕ)) (iou_threshold : ℚ) (nGT : ℕ)
    (i : ℕ) : Option (ℚ × ℚ) :=
  let iou_i := pairs.take i
  let tp := (tpRegion iou_threshold iou_i).1
  let region := (tpRegion iou_threshold iou_i).2
  let fp := iou_i.length - tp
  if tp + fp = 0 then none
  else if nGT = 0 then none
  else some ((tp : ℚ) / ((tp : ℚ) + (fp : ℚ)), (region.length : ℚ) / (nGT : ℚ))

/-- The `while k < len(recall) and recall[k] >= val` scan of
`average_precision_sls`, over the reversed (recall, precision) points,
carrying the running maximum `p`. -/
def scanLoop (val : ℚ) : List (ℚ × ℚ) → ℚ → ℚ
  | [], p => p
  | (r, pr) :: rest, p =>
    if r ≥ val then scanLoop val rest (if pr ≥ p then pr else p) else p

/-- Recall values for calculating average precision (the 11 canonical
levels). -/
def recall_interp : List ℚ :=
  [0.0, 0.1, 0.2, 0.3, 0.4, 0.5, 0.6, 0.7, 0.8, 0.9, 1.0]

/-- The part of `average_precision_sls` downstream of `calculate_IOU`: builds
the (precision, recall) points for prefix lengths `1 .. len(iou) - 1`, then
the 11-point interpolation, then the mean.  `nGT` is `len(labeled_data)`. -/
def apFrom (iou : List ℚ) (anomaly_region : List (List ℕ)) (nGT : ℕ)
    (iou_threshold : ℚ) : Option ℚ :=
  match (List.range' 1 (iou.length - 1)).mapM
      (prPoint (iou.zip anomaly_region) iou_threshold nGT) with
  | none => none
  | some pr =>
    let precisionL := pr.map Prod.fst
    let recallL := pr.map Prod.snd
    let pts := (recallL.reverse).zip (precisionL.reverse)
    let precision_interp := (recall_interp.reverse).map (fun val => scanLoop val pts 0)
    some (precision_interp.sum / (precision_interp.length : ℚ))

/-- Calculates the 11-point interpolated average precision of the ranked
detection table against the windows derived from the labels. -/
def average_precision_sls (anomalies : List Window) (label : List (ℚ × ℕ))
    (iou_threshold : ℚ) : Option ℚ :=
  let labeled_data := label_anomaly_windows label
  match calculate_IOU anomalies labeled_data with
  | none => none
  | some (iou, anomaly_region) =>
    apFrom iou anomaly_region labeled_data.length iou_threshold

/-- Intersection-over-union thresholds for the mean-average-precision
calculation. -/
def map_thresholds : List ℚ := [0.05, 0.10, 0.15, 0.20, 0.25]

/-- The accumulation loop of `mean_average_precision_sls`. -/
def mapLoop (anomalies : List Window) (labels : List (ℚ × ℕ)) :
    List ℚ → ℚ → Option ℚ
  | [], mean => some mean
  | t :: rest, mean =>
    match average_precision_sls anomalies labels t with
    | none => none
    | some ap => mapLoop anomalies labels rest (mean + ap)

/-- Mean of the average precision over all IoU thresholds.  The external
detector `detect_anomalies` is out of scope; the ranked detection table it
returns is taken as the `anomalies` parameter. -/
def mean_average_precision_sls (anomalies : List Window)
    (labels : List (ℚ × ℕ)) : Option ℚ :=
  match mapLoop anomalies labels map_thresholds 0 with
  | none => none
  | some mean => some (mean / (map_thresholds.length : ℚ))

/-- Interpolated precision of the specification at recall level `r`: the
maximum precision among all (precision, recall) points whose recall is at
least `r`, and `0` when there is no such point. -/
def maxPrecAtLeast (pr : List (ℚ × ℚ)) (r : ℚ) : ℚ :=
  ((pr.filter (fun q => r ≤ q.2)).map Prod.fst).foldr max 0

/-- Value contributed by one ground-truth window to the iou of a fixed
detection window (zero when no geometric case matches or on error). -/
def cVal (s e : ℚ) (g : PyVal × PyVal) : ℚ :=
  match pairContrib s e g.1 g.2 with
  | some (some c) => c
  | _ => 0

/-- Whether one ground-truth window matches one of the three geometric cases
for a fixed detection window. -/
def cHit (s e : ℚ) (g : PyVal × PyVal) : Bool :=
  match pairContrib s e g.1 g.2 with
  | some (some _) => true
  | _ => false

/-- Indices (relative to a running offset `j`) of the ground-truth windows
matched by a fixed detection window; this is the `region` list `detLoop`
builds. -/
def idxList (s e : ℚ) : List (PyVal × PyVal) → ℕ → List ℕ
  | [], _ => []
  | g :: rest, j => (if cHit s e g then [j] else []) ++ idxList s e rest (j + 1)

/-- Extension of a permutation of `Fin n` to all of `ℕ`, acting as the
identity above `n`. -/
def sigN (n : ℕ) (σ : Equiv.Perm (Fin n)) (j : ℕ) : ℕ :=
  if h : j < n then (σ ⟨j, h⟩ : Fin n) else j

/-- Set of ground-truth indices covered by the over-threshold detections of a
ranked prefix, starting from the set `S`: the set abstraction of the
deduplicated `region` list built by the prefix scan. -/
def regionFinset (iou_threshold : ℚ) (pairs : List (ℚ × List ℕ))
    (S : Finset ℕ) : Finset ℕ :=
  pairs.foldl (fun S p => if p.1 > iou_threshold then S ∪ p.2.toFinset else S) S

/-! ### Basic structural lemmas -/

theorem calculate_IOU_lengths :
    ∀ (as : List Window) (lw : List (PyVal × PyVal)) (iou : List ℚ)
      (ar : List (List ℕ)), calculate_IOU as lw = some (iou, ar) →
      iou.length = as.length ∧ ar.length = as.length := by
  intro as
  induction as with
  | nil =>
    intro lw iou ar h
    simp only [calculate_IOU, Option.some.injEq, Prod.mk.injEq] at h
    simp [← h.1, ← h.2]
  | cons a rest ih =>
    intro lw iou ar h
    simp only [calculate_IOU] at h
    cases hd : detLoop a.start a.«end» lw 0 0 [] with
    | none => rw [hd] at h; exact absurd h (by simp)
    | some p =>
      rw [hd] at h
      cases hr : calculate_IOU rest lw with
      | none => rw [hr] at h; exact absurd h (by simp)
      | some q =>
        rw [hr] at h
        obtain ⟨x, y⟩ := p
        obtain ⟨u, w⟩ := q
        simp only [Option.some.injEq, Prod.mk.injEq] at h
        obtain ⟨h1, h2⟩ := h
        have := ih lw u w hr
        constructor
        · rw [← h1]; simp [this.1]
        · rw [← h2]; simp [this.2]


/-- C3: at the failing input (labels with no 1s, two detections) the derived
ground-truth list is empty and `calculate_IOU` degrades gracefully (all IoU
values 0, all covered lists empty), but the downstream recall computation
divides `len(region)` by `len(labeled_data) = 0`, so `average_precision_sls`
and `mean_average_precision_sls` raise a `ZeroDivisionError` (modelled as
`none`) instead of completing with the value 0 the claim states. -/
theorem C3_empty_ground_truth_raises :
    label_anomaly_windows [((0:ℚ), (0:ℕ)), (1, 0), (2, 0)] = [] ∧
    calculate_IOU [⟨0, 1⟩, ⟨2, 3⟩]
        (label_anomaly_windows [((0:ℚ), (0:ℕ)), (1, 0), (2, 0)]) =
      some ([0, 0], [[], []]) ∧
    average_precision_sls [⟨0, 1⟩, ⟨2, 3⟩] [((0:ℚ), (0:ℕ)), (1, 0), (2, 0)]
        (1/20) = none ∧
    mean_average_precision_sls [⟨0, 1⟩, ⟨2, 3⟩]
        [((0:ℚ), (0:ℕ)), (1, 0), (2, 0)] = none := by
  with_unfolding_all decide

/-- C4 counterexample: with a single detection the prefix loop produces no
precision/recall points, yet the returned AP value is `0` (all eleven
interpolated precisions default to `0` and `np.mean` of eleven zeros is `0`),
not NaN/undefined. -/
theorem C4_counterexample :
    ([(⟨0, 1⟩ : Window)].length < 2) ∧
    average_precision_sls [⟨0, 1⟩] [((0:ℚ), (0:ℕ)), (1, 1), (2, 0)] (1/20) =
      some 0 ∧
    average_precision_sls [⟨0, 1⟩] [((0:ℚ), (0:ℕ)), (1, 1), (2, 0)] (1/20) ≠
      none := by
  with_unfolding_all decide

/-- C4 (amended): for every detection table with fewer than 2 rows whose IoU
computation does not itself raise, the prefix loop produces no
precision/recall points and the returned AP value is `0` (not NaN): each of
the 11 interpolated precisions defaults to 0 and their mean is 0. -/
theorem C4_fewer_than_two_detections (anomalies : List Window)
    (label : List (ℚ × ℕ)) (iou_threshold : ℚ) (iou : List ℚ)
    (ar : List (List ℕ)) (h : anomalies.length < 2)
    (hio : calculate_IOU anomalies (label_anomaly_windows label) =
      some (iou, ar)) :
    (List.range' 1 (iou.length - 1)).mapM
        (prPoint (iou.zip ar) iou_threshold
          (label_anomaly_windows label).length) = some [] ∧
    average_precision_sls anomalies label iou_threshold = some 0 := by
  have hlen := (calculate_IOU_lengths _ _ _ _ hio).1
  have h0 : iou.length - 1 = 0 := by omega
  constructor
  · rw [h0]
    rfl
  · simp only [average_precision_sls]
    rw [hio]
    simp only [apFrom, h0]
    simp only [List.range'_zero]
    rw [show (List.mapM (prPoint (iou.zip ar) iou_threshold
      (label_anomaly_windows label).length) ([] : List ℕ)) = some [] from rfl]
    simp only [List.map_nil, List.reverse_nil, List.zip_nil_left, scanLoop]
    norm_num [recall_interp]

/-- C4 witness: the amended theorem applied at a concrete one-row detection
table. -/
theorem C4_fewer_than_two_detections_witness :
    ([(⟨0, 1⟩ : Window)].length < 2) ∧
    average_precision_sls [⟨0, 1⟩] [((0:ℚ), (0:ℕ)), (1, 1), (2, 0)] (1/20) =
      some 0 :=
  ⟨by decide,
    (C4_fewer_than_two_detections [⟨0, 1⟩] [((0:ℚ), (0:ℕ)), (1, 1), (2, 0)]
      (1/20) [1/2] [[0]] (by decide)
      (by with_unfolding_all decide)).2⟩

/-- C5 counterexample: a series of length 2 whose last label is 1 but whose
first label is 0; at the final index the opening-transition branch fires
first (it is an `elif` chain), so the trailing window is never closed and the
output is empty, with no interval ending at the integer index 1. -/
theorem C5_counterexample :
    (([((0:ℚ), (0:ℕ)), (1, 1)] : List (ℚ × ℕ)).length = 2) ∧
    (([((0:ℚ), (0:ℕ)), (1, 1)] : List (ℚ × ℕ)).map Prod.snd).getD 1 0 = 1 ∧
    label_anomaly_windows [((0:ℚ), (0:ℕ)), (1, 1)] = [] := by
  decide

/-- C5 (amended): for every label series of length at least 2 whose last TWO
labels are both 1, the trailing window is closed and the last interval of the
output has as end the raw integer index `len - 1`, not a timestamp. -/
theorem C5_trailing_window (label : List (ℚ × ℕ)) (h2 : 2 ≤ label.length)
    (hl1 : (label.map Prod.snd).getD (label.length - 1) 0 = 1)
    (hl2 : (label.map Prod.snd).getD (label.length - 2) 0 = 1) :
    ∃ s, (label_anomaly_windows label).getLast? =
      some (s, PyVal.int ((label.length - 1 : ℕ) : ℤ)) := by
  set n := label.length with hn
  set tss := label.map Prod.fst with htss
  set lbs := label.map Prod.snd with hlbsdef
  have hlbs : lbs.length = n := by simp [hlbsdef, hn]
  have hsplit : List.range' 1 (n - 1) = List.range' 1 (n - 2) ++ [n - 1] := by
    have h := List.range'_append 1 (n - 2) 1 1
    rw [List.range'_one] at h
    rw [show 1 + 1 * (n - 2) = n - 1 by omega,
      show 1 + (n - 2) = n - 1 by omega] at h
    exact h.symm
  unfold label_anomaly_windows
  rw [← hn, ← htss, ← hlbsdef, hsplit, List.foldl_append]
  set s1 := (List.range' 1 (n - 2)).foldl (lawStep tss lbs) (.int 0, []) with hs1
  refine ⟨s1.1, ?_⟩
  have hb1 : ¬ (lbs.getD (n - 1) 0 = 1 ∧ lbs.getD ((n - 1) - 1) 0 = 0) := by
    rw [show (n - 1) - 1 = n - 2 by omega, hl2]
    simp
  have hb2 : ¬ (lbs.getD ((n - 1) - 1) 0 = 1 ∧ lbs.getD (n - 1) 0 = 0) := by
    rw [hl1]
    simp
  have hb3 : (n - 1) = lbs.length - 1 ∧ lbs.getD (n - 1) 0 = 1 :=
    ⟨by rw [hlbs], hl1⟩
  simp only [List.foldl_cons, List.foldl_nil]
  rw [lawStep, if_neg hb1, if_neg hb2, if_pos hb3]
  simp

/-- C5 witness: the amended theorem applied to the series with labels
`[1, 1]`. -/
theorem C5_trailing_window_witness :
    2 ≤ ([((0:ℚ), (1:ℕ)), (1, 1)] : List (ℚ × ℕ)).length ∧
    ∃ s, (label_anomaly_windows [((0:ℚ), (1:ℕ)), (1, 1)]).getLast? =
      some (s, PyVal.int
        ((([((0:ℚ), (1:ℕ)), (1, 1)] : List (ℚ × ℕ)).length - 1 : ℕ) : ℤ)) :=
  ⟨by decide,
    C5_trailing_window [((0:ℚ), (1:ℕ)), (1, 1)] (by decide) (by decide)
      (by decide)⟩

/-- Closed-form evaluation of the three-case inner body of `calculate_IOU`
when both ground-truth endpoints are timestamps.  The first case tested by
the code is `D.start <= G.start <= D.end` (with no upper comparison of
`D.end` against `G.end`); its min/max formulas cover both the left-overlap
and the detection-contains-ground-truth configurations. -/
theorem pairContrib_time (ds de u v : ℚ) :
    pairContrib ds de (.time u) (.time v) =
      if ds ≤ u ∧ u ≤ de then
        if 1 + (max v de - ds) = 0 then none
        else some (some ((1 + (min v de - u)) / (1 + (max v de - ds))))
      else if u ≤ ds ∧ de ≤ v then
        if 1 + (v - u) = 0 then none
        else some (some ((1 + (de - ds)) / (1 + (v - u))))
      else if ds ≤ v ∧ v ≤ de then
        if 1 + (de - u) = 0 then none
        else some (some ((1 + (v - ds)) / (1 + (de - u))))
      else some none := by
  rcases lt_trichotomy v de with hv | hv | hv
  · have h4 : ¬ de ≤ v := not_le.mpr hv
    have h4' : ¬ de < v := asymm hv
    by_cases h1 : ds ≤ u <;> by_cases h2 : u ≤ de <;> by_cases h5 : ds ≤ v <;>
      simp [pairContrib, pyAnd, pyGE, pyGT, pyLE, pyLT, t_min, t_max, durMin,
        h1, h2, h5, hv, h4, h4', hv.le, min_eq_left hv.le, max_eq_right hv.le]
  · subst hv
    by_cases h1 : ds ≤ u <;> by_cases h2 : u ≤ v <;> by_cases h3 : u ≤ ds <;>
        by_cases h5 : ds ≤ v <;>
      simp [pairContrib, pyAnd, pyGE, pyGT, pyLE, pyLT, t_min, t_max, durMin,
        h1, h2, h3, h5]
  · have h4 : de ≤ v := hv.le
    have h4' : ¬ v < de := asymm hv
    have h6 : ¬ v ≤ de := not_le.mpr hv
    by_cases h1 : ds ≤ u <;> by_cases h2 : u ≤ de <;> by_cases h3 : u ≤ ds <;>
      simp [pairContrib, pyAnd, pyGE, pyGT, pyLE, pyLT, t_min, t_max, durMin,
        h1, h2, h3, h4, h4', h6, hv, min_eq_right h4, max_eq_left h4]

/-- C2 counterexample: D = [0, 10], G = [2, 4] in minutes.  Both windows are
well-formed, `D.start <= G.end <= D.end` holds, and case a in the claim's
reading (`D.start <= G.start <= D.end <= G.end`) does not hold, yet the code
contribution is 3/11 (the first tested branch fires because the code's first
condition is only `D.start <= G.start <= D.end`), not the claimed
`(1 + (G.end - D.start)) / (1 + (D.end - G.start)) = 5/9`. -/
theorem C2_counterexample :
    ((0:ℚ) ≤ 10 ∧ (2:ℚ) ≤ 4) ∧
    ((0:ℚ) ≤ 4 ∧ (4:ℚ) ≤ 10) ∧
    ¬ ((0:ℚ) ≤ 2 ∧ (2:ℚ) ≤ 10 ∧ (10:ℚ) ≤ 4) ∧
    calculate_IOU [⟨0, 10⟩] [(.time 2, .time 4)] = some ([3/11], [[0]]) ∧
    ((3:ℚ)/11) ≠ (1 + ((4:ℚ) - 0)) / (1 + ((10:ℚ) - 2)) := by
  with_unfolding_all decide

/-- C2 (amended): for well-formed windows with `D.start <= G.end <= D.end`,
when the code's first tested case `D.start <= G.start <= D.end` does not
hold, the contribution of the pair is
`(1 + (G.end - D.start)) / (1 + (D.end - G.start))` and the ground-truth
index is appended to the covered list (the pair then falls to the
containment case exactly when `D.end = G.end`, where that formula coincides,
and otherwise to the right-overlap case; the `elif` chain applies exactly one
case). -/
theorem C2_right_overlap (ds de u v : ℚ) (hD : ds ≤ de) (hG : u ≤ v)
    (hc : ds ≤ v ∧ v ≤ de) (hna : ¬ (ds ≤ u ∧ u ≤ de)) :
    pairContrib ds de (.time u) (.time v) =
      some (some ((1 + (v - ds)) / (1 + (de - u)))) ∧
    calculate_IOU [⟨ds, de⟩] [(.time u, .time v)] =
      some ([(1 + (v - ds)) / (1 + (de - u))], [[0]]) := by
  have hu : u < ds := by
    rcases not_and_or.mp hna with h | h
    · exact not_le.mp h
    · exact absurd (le_trans hG hc.2) h
  have hun : ¬ (1 + (de - u) = 0) := by
    have h1 : u < de := lt_of_lt_of_le hu (le_trans hc.1 hc.2)
    intro h0
    nlinarith [h1]
  have hpc : pairContrib ds de (.time u) (.time v) =
      some (some ((1 + (v - ds)) / (1 + (de - u)))) := by
    rcases le_or_lt de v with hbv | hbv
    · have hvde : v = de := le_antisymm hc.2 hbv
      subst hvde
      rw [pairContrib_time, if_neg hna, if_pos ⟨hu.le, le_refl v⟩, if_neg hun]
    · rw [pairContrib_time, if_neg hna,
        if_neg fun hh => absurd hh.2 (not_le.mpr hbv), if_pos hc, if_neg hun]
  refine ⟨hpc, ?_⟩
  simp [calculate_IOU, detLoop, hpc]

/-- C2 witness: the amended theorem applied at D = [2, 10], G = [0, 5]. -/
theorem C2_right_overlap_witness :
    ((2:ℚ) ≤ 10 ∧ (0:ℚ) ≤ 5 ∧ ((2:ℚ) ≤ 5 ∧ (5:ℚ) ≤ 10) ∧
      ¬ ((2:ℚ) ≤ 0 ∧ (0:ℚ) ≤ 10)) ∧
    calculate_IOU [⟨2, 10⟩] [(.time 0, .time 5)] =
      some ([(1 + ((5:ℚ) - 2)) / (1 + ((10:ℚ) - 0))], [[0]]) :=
  ⟨⟨by norm_num, by norm_num, ⟨by norm_num, by norm_num⟩, by norm_num⟩,
    (C2_right_overlap 2 10 0 5 (by norm_num) (by norm_num)
      ⟨by norm_num, by norm_num⟩ (by norm_num)).2⟩

/-- Appending to the accumulated window list commutes with one `lawStep`:
each loop iteration only ever appends to the right of the list. -/
theorem lawStep_acc (tss : List ℚ) (lbs : List ℕ) (st : PyVal)
    (acc : List (PyVal × PyVal)) (i : ℕ) :
    lawStep tss lbs (st, acc) i =
      ((lawStep tss lbs (st, []) i).1, acc ++ (lawStep tss lbs (st, []) i).2) := by
  unfold lawStep
  split_ifs <;> simp

/-- The window list accumulated by the `label_anomaly_windows` scan is an
append-only accumulator. -/
theorem foldl_lawStep_split (tss : List ℚ) (lbs : List ℕ) :
    ∀ (l : List ℕ) (st : PyVal) (acc : List (PyVal × PyVal)),
      l.foldl (lawStep tss lbs) (st, acc) =
        ((l.foldl (lawStep tss lbs) (st, [])).1,
          acc ++ (l.foldl (lawStep tss lbs) (st, [])).2) := by
  intro l
  induction l with
  | nil => simp
  | cons a l ih =>
    intro st acc
    simp only [List.foldl_cons]
    rw [lawStep_acc]
    rw [ih (lawStep tss lbs (st, []) a).1 (acc ++ (lawStep tss lbs (st, []) a).2)]
    conv_rhs =>
      rw [show lawStep tss lbs (st, []) a =
        ((lawStep tss lbs (st, []) a).1, (lawStep tss lbs (st, []) a).2) from rfl]
      rw [ih (lawStep tss lbs (st, []) a).1 (lawStep tss lbs (st, []) a).2]
    simp

/-- Invariant preservation along a left fold. -/
theorem foldl_inv {α β : Type} (f : β → α → β) (P : β → Prop) :
    ∀ (l : List α) (s : β), (∀ s a, a ∈ l → P s → P (f s a)) → P s →
      P (l.foldl f s) := by
  intro l
  induction l with
  | nil => intro s _ hs; exact hs
  | cons a l ih =>
    intro s hstep hs
    exact ih (f s a) (fun t b hb ht => hstep t b (List.mem_cons_of_mem a hb) ht)
      (hstep s a (List.mem_cons_self a l) hs)

/-- C6: when the series starts inside a run of 1-labels (labels at all
indices up to `i` equal 1, timestamps strictly increasing), the scan that
starts at index 1 never sees a 0-to-1 transition inside that leading run, so
no emitted interval has a start equal to any timestamp of the run: every
start is either the raw integer 0 or a timestamp strictly after the run. -/
theorem C6_leading_run_no_timestamp_start (label : List (ℚ × ℕ))
    (hmono : (label.map Prod.fst).Pairwise (· < ·)) (i : ℕ)
    (hi : i < label.length)
    (hrun : ∀ k ≤ i, (label.map Prod.snd).getD k 0 = 1)
    (w : PyVal × PyVal) (hw : w ∈ label_anomaly_windows label)
    (k : ℕ) (hk : k ≤ i) :
    w.1 ≠ PyVal.time ((label.map Prod.fst).getD k 0) := by
  set n := label.length with hn
  set tss := label.map Prod.fst with htss
  set lbs := label.map Prod.snd with hlbsdef
  have htl : tss.length = n := by simp [htss, hn]
  have hlbs : lbs.length = n := by simp [hlbsdef, hn]
  set P : PyVal → Prop :=
    fun st => st = .int 0 ∨ ∃ j, i < j ∧ j < n ∧ st = .time (tss.getD j 0)
    with hP
  have hinv : P ((List.range' 1 (n - 1)).foldl (lawStep tss lbs)
        (.int 0, [])).1 ∧
      ∀ w ∈ ((List.range' 1 (n - 1)).foldl (lawStep tss lbs) (.int 0, [])).2,
        P w.1 := by
    refine foldl_inv (lawStep tss lbs)
      (fun s => P s.1 ∧ ∀ w ∈ s.2, P w.1) _ _ ?_ ⟨Or.inl rfl, by simp⟩
    intro s a ha hs
    have ha' : 1 ≤ a ∧ a < 1 + (n - 1) := List.mem_range'_1.mp ha
    unfold lawStep
    split_ifs with hb1 hb2 hb3
    · refine ⟨Or.inr ⟨a, ?_, by omega, rfl⟩, hs.2⟩
      by_contra hcon
      have := hrun (a - 1) (by omega)
      rw [this] at hb1
      exact absurd hb1.2 (by simp)
    · refine ⟨hs.1, ?_⟩
      intro w hw
      rcases List.mem_append.mp hw with h | h
      · exact hs.2 w h
      · have : w = (s.1, PyVal.time (tss.getD (a - 1) 0)) := by simpa using h
        rw [this]
        exact hs.1
    · refine ⟨hs.1, ?_⟩
      intro w hw
      rcases List.mem_append.mp hw with h | h
      · exact hs.2 w h
      · have : w = (s.1, PyVal.int (a : ℤ)) := by simpa using h
        rw [this]
        exact hs.1
    · exact hs
  have hPw : P w.1 := hinv.2 w hw
  rcases hPw with h | ⟨j, hij, hjn, hst⟩
  · rw [h]
    simp
  · rw [hst]
    intro hcon
    have heq : tss.getD j 0 = tss.getD k 0 := by
      simpa using hcon
    have hkn : k < n := by omega
    rw [List.getD_eq_getElem tss 0 (htl ▸ hjn),
      List.getD_eq_getElem tss 0 (htl ▸ hkn)] at heq
    have := List.pairwise_iff_getElem.mp hmono k j (htl ▸ hkn) (htl ▸ hjn)
      (by omega)
    exact absurd heq.symm (ne_of_lt this)

/-- C6 witness: the theorem applied to labels `[1, 1, 0, 1, 0]` with the
leading run `i = 1`, checking the first emitted interval against the run
timestamp at index 0. -/
theorem C6_leading_run_no_timestamp_start_witness :
    (([((0:ℚ), (1:ℕ)), (1, 1), (2, 0), (3, 1), (4, 0)] :
        List (ℚ × ℕ)).map Prod.fst).Pairwise (· < ·) ∧
    (∀ k ≤ 1, (([((0:ℚ), (1:ℕ)), (1, 1), (2, 0), (3, 1), (4, 0)] :
        List (ℚ × ℕ)).map Prod.snd).getD k 0 = 1) ∧
    (PyVal.int 0, PyVal.time 1) ∈
      label_anomaly_windows [((0:ℚ), (1:ℕ)), (1, 1), (2, 0), (3, 1), (4, 0)] ∧
    ((PyVal.int 0, PyVal.time 1) : PyVal × PyVal).1 ≠
      PyVal.time ((([((0:ℚ), (1:ℕ)), (1, 1), (2, 0), (3, 1), (4, 0)] :
        List (ℚ × ℕ)).map Prod.fst).getD 0 0) :=
  ⟨by decide, by decide, by decide,
    C6_leading_run_no_timestamp_start
      [((0:ℚ), (1:ℕ)), (1, 1), (2, 0), (3, 1), (4, 0)] (by decide) 1
      (by decide) (by decide) (PyVal.int 0, PyVal.time 1) (by decide) 0
      (by decide)⟩

/-- C9: when the series starts with a run of 1-labels whose first 1-to-0
transition is at index `i`, the emitted interval for that leading run is the
first one in the output; its start is the raw integer accumulator value 0
(never updated inside the run) and its end is the timestamp at index
`i - 1`. -/
theorem C9_leading_run_interval (label : List (ℚ × ℕ)) (i : ℕ) (h1 : 1 ≤ i)
    (hi : i < label.length)
    (hrun : ∀ k < i, (label.map Prod.snd).getD k 0 = 1)
    (h0 : (label.map Prod.snd).getD i 0 = 0) :
    (label_anomaly_windows label).head? =
      some (PyVal.int 0, PyVal.time ((label.map Prod.fst).getD (i - 1) 0)) := by
  set n := label.length with hn
  set tss := label.map Prod.fst with htss
  set lbs := label.map Prod.snd with hlbsdef
  have hlbs : lbs.length = n := by simp [hlbsdef, hn]
  have hsplit : List.range' 1 (n - 1) =
      List.range' 1 (i - 1) ++ List.range' i (n - i) := by
    have h := List.range'_append 1 (i - 1) (n - i) 1
    rw [show 1 + 1 * (i - 1) = i by omega,
      show (n - i) + (i - 1) = n - 1 by omega] at h
    exact h.symm
  unfold label_anomaly_windows
  rw [← hn, ← htss, ← hlbsdef, hsplit, List.foldl_append]
  have hph1 : (List.range' 1 (i - 1)).foldl (lawStep tss lbs)
      ((.int 0 : PyVal), ([] : List (PyVal × PyVal))) = (.int 0, []) := by
    refine foldl_inv (lawStep tss lbs) (fun s => s = (.int 0, [])) _ _ ?_ rfl
    intro s a ha hs
    subst hs
    have ha' : 1 ≤ a ∧ a < 1 + (i - 1) := List.mem_range'_1.mp ha
    have hb1 : ¬ (lbs.getD a 0 = 1 ∧ lbs.getD (a - 1) 0 = 0) := by
      rw [hrun (a - 1) (by omega)]
      simp
    have hb2 : ¬ (lbs.getD (a - 1) 0 = 1 ∧ lbs.getD a 0 = 0) := by
      rw [hrun a (by omega)]
      simp
    have hb3 : ¬ (a = lbs.length - 1 ∧ lbs.getD a 0 = 1) := by
      rw [hlbs]
      rintro ⟨h, -⟩
      omega
    rw [lawStep, if_neg hb1, if_neg hb2, if_neg hb3]
  rw [hph1]
  rw [show n - i = (n - i - 1) + 1 by omega, List.range'_succ, List.foldl_cons]
  have hstep : lawStep tss lbs ((.int 0 : PyVal), ([] : List (PyVal × PyVal))) i =
      (.int 0, [(PyVal.int 0, PyVal.time (tss.getD (i - 1) 0))]) := by
    have hb1 : ¬ (lbs.getD i 0 = 1 ∧ lbs.getD (i - 1) 0 = 0) := by
      rw [h0]
      simp
    have hb2 : lbs.getD (i - 1) 0 = 1 ∧ lbs.getD i 0 = 0 :=
      ⟨hrun (i - 1) (by omega), h0⟩
    rw [lawStep, if_neg hb1, if_pos hb2]
    simp
  rw [hstep, foldl_lawStep_split]
  simp

/-- C9 witness: the theorem applied to labels `[1, 1, 0]` with timestamps
`5, 6, 7`, where the first transition is at index 2. -/
theorem C9_leading_run_interval_witness :
    (1:ℕ) ≤ 2 ∧ 2 < ([((5:ℚ), (1:ℕ)), (6, 1), (7, 0)] : List (ℚ × ℕ)).length ∧
    (label_anomaly_windows [((5:ℚ), (1:ℕ)), (6, 1), (7, 0)]).head? =
      some (PyVal.int 0, PyVal.time
        ((([((5:ℚ), (1:ℕ)), (6, 1), (7, 0)] : List (ℚ × ℕ)).map
          Prod.fst).getD 1 0)) :=
  ⟨by decide, by decide,
    C9_leading_run_interval [((5:ℚ), (1:ℕ)), (6, 1), (7, 0)] 2 (by decide)
      (by decide) (by decide) (by decide)⟩

/-- For well-formed timestamp windows the inner three-case body never raises
and every matched ratio is strictly positive (the +1 smoothing makes both the
overlap numerator and the union denominator at least 1). -/
theorem pairContrib_wf (ds de u v : ℚ) (hD : ds ≤ de) (hG : u ≤ v) :
    ∃ o : Option ℚ, pairContrib ds de (.time u) (.time v) = some o ∧
      ∀ c, o = some c → 0 < c := by
  rw [pairContrib_time]
  by_cases h1 : ds ≤ u ∧ u ≤ de
  · rw [if_pos h1]
    have hun : (0:ℚ) < 1 + (max v de - ds) := by
      have h := le_max_right v de
      linarith [h1.1, h1.2]
    have hov : (0:ℚ) < 1 + (min v de - u) := by
      have h2 : u ≤ min v de := le_min hG h1.2
      linarith
    rw [if_neg (ne_of_gt hun)]
    refine ⟨_, rfl, fun c hc => ?_⟩
    injection hc with h
    rw [← h]
    exact div_pos hov hun
  · rw [if_neg h1]
    by_cases h2 : u ≤ ds ∧ de ≤ v
    · rw [if_pos h2]
      have hun : (0:ℚ) < 1 + (v - u) := by linarith
      have hov : (0:ℚ) < 1 + (de - ds) := by linarith
      rw [if_neg (ne_of_gt hun)]
      refine ⟨_, rfl, fun c hc => ?_⟩
      injection hc with h
      rw [← h]
      exact div_pos hov hun
    · rw [if_neg h2]
      by_cases h3 : ds ≤ v ∧ v ≤ de
      · rw [if_pos h3]
        have hun : (0:ℚ) < 1 + (de - u) := by linarith [h3.2]
        have hov : (0:ℚ) < 1 + (v - ds) := by linarith [h3.1]
        rw [if_neg (ne_of_gt hun)]
        refine ⟨_, rfl, fun c hc => ?_⟩
        injection hc with h
        rw [← h]
        exact div_pos hov hun
      · rw [if_neg h3]
        exact ⟨none, rfl, by simp⟩

/-- The per-detection loop of `calculate_IOU` preserves the invariant that
the running iou sum is nonnegative and strictly positive exactly when the
running covered list is nonempty. -/
theorem detLoop_inv (s e : ℚ) :
    ∀ (lw : List (PyVal × PyVal)),
      (∀ g ∈ lw, ∃ o : Option ℚ, pairContrib s e g.1 g.2 = some o ∧
        ∀ c, o = some c → 0 < c) →
      ∀ (j : ℕ) (x : ℚ) (r : List ℕ), 0 ≤ x → (0 < x ↔ r ≠ []) →
        ∃ y r', detLoop s e lw j x r = some (y, r') ∧ 0 ≤ y ∧
          (0 < y ↔ r' ≠ []) := by
  intro lw
  induction lw with
  | nil =>
    intro _ j x r hx hxr
    exact ⟨x, r, rfl, hx, hxr⟩
  | cons g rest ih =>
    intro hok j x r hx hxr
    obtain ⟨o, ho, hpos⟩ := hok g (List.mem_cons_self g rest)
    have hrest := fun g hg => hok g (List.mem_cons_of_mem _ hg)
    cases o with
    | none =>
      simp only [detLoop, ho]
      exact ih hrest (j + 1) x r hx hxr
    | some c =>
      have hc : 0 < c := hpos c rfl
      simp only [detLoop, ho]
      refine ih hrest (j + 1) (x + c) (r ++ [j]) (by linarith) ?_
      constructor
      · intro _
        simp
      · intro _
        linarith

/-- C10: for every detection table of well-formed windows and every
ground-truth list of well-formed timestamp intervals, `calculate_IOU`
succeeds, every IoU value is nonnegative, and a detection's IoU value is
strictly positive exactly when its covered list is nonempty. -/
theorem C10_iou_nonneg_pos_iff_covered (anomalies : List Window)
    (gt : List (PyVal × PyVal))
    (hd : ∀ a ∈ anomalies, a.start ≤ a.«end»)
    (hg : ∀ g ∈ gt, ∃ u v : ℚ, g = (.time u, .time v) ∧ u ≤ v) :
    ∃ iou regions, calculate_IOU anomalies gt = some (iou, regions) ∧
      ∀ p ∈ iou.zip regions, 0 ≤ p.1 ∧ (0 < p.1 ↔ p.2 ≠ []) := by
  induction anomalies with
  | nil => exact ⟨[], [], rfl, by simp⟩
  | cons a rest ih =>
    have hok : ∀ g ∈ gt, ∃ o : Option ℚ,
        pairContrib a.start a.«end» g.1 g.2 = some o ∧
        ∀ c, o = some c → 0 < c := by
      intro g hgm
      obtain ⟨u, v, hguv, huv⟩ := hg g hgm
      rw [hguv]
      exact pairContrib_wf a.start a.«end» u v
        (hd a (List.mem_cons_self a rest)) huv
    obtain ⟨y, r', hdet, hy, hyr⟩ := detLoop_inv a.start a.«end» gt hok 0 0 []
      le_rfl (by simp)
    obtain ⟨iou, regions, hio, hall⟩ :=
      ih (fun b hb => hd b (List.mem_cons_of_mem a hb))
    refine ⟨y :: iou, r' :: regions, ?_, ?_⟩
    · simp only [calculate_IOU, hdet, hio]
    · intro p hp
      rcases List.mem_cons.mp hp with h | h
      · rw [h]
        exact ⟨hy, hyr⟩
      · exact hall p h

/-- C10 witness: the theorem applied to two concrete detections, one
overlapping the single ground-truth interval and one disjoint from it. -/
theorem C10_iou_nonneg_pos_iff_covered_witness :
    ∃ iou regions,
      calculate_IOU [⟨1, 1⟩, ⟨5, 6⟩] [(.time 1, .time 2)] =
        some (iou, regions) ∧
      ∀ p ∈ iou.zip regions, 0 ≤ p.1 ∧ (0 < p.1 ↔ p.2 ≠ []) :=
  C10_iou_nonneg_pos_iff_covered [⟨1, 1⟩, ⟨5, 6⟩] [(.time 1, .time 2)]
    (by intro a ha; fin_cases ha <;> norm_num)
    (by
      intro g hgm
      rw [List.mem_singleton] at hgm
      exact ⟨1, 2, hgm, by norm_num⟩)

theorem optMapM_forall2 {α β : Type} (f : α → Option β) :
    ∀ (l : List α) (r : List β),
      l.mapM f = some r ↔ List.Forall₂ (fun a b => f a = some b) l r := by
  intro l
  induction l with
  | nil =>
    intro r
    rw [List.mapM_nil]
    constructor
    · intro h
      cases h
      exact List.Forall₂.nil
    · intro h
      cases h
      rfl
  | cons a l ih =>
    intro r
    rw [List.mapM_cons]
    constructor
    · intro h
      cases hfa : f a with
      | none => rw [hfa] at h; exact absurd h (by simp)
      | some b =>
        rw [hfa] at h
        cases hml : l.mapM f with
        | none => rw [hml] at h; exact absurd h (by simp)
        | some bs =>
          rw [hml] at h
          have h' : b :: bs = r := by simpa using h
          rw [← h']
          exact List.Forall₂.cons hfa ((ih bs).mp hml)
    · intro h
      cases h with
      | cons hab htail =>
        rw [hab, (ih _).mpr htail]
        rfl

theorem prPoint_eq (pairs : List (ℚ × List ℕ)) (thr : ℚ) (nGT i : ℕ)
    (x : ℚ × ℚ) (h : prPoint pairs thr nGT i = some x) :
    nGT ≠ 0 ∧
    x.2 = (((tpRegion thr (pairs.take i)).2.length : ℚ) / (nGT : ℚ)) ∧
    0 ≤ x.1 ∧ x.1 ≤ 1 := by
  simp only [prPoint] at h
  split_ifs at h with h1 h2
  injection h with h'
  have hq : (0:ℚ) < ((tpRegion thr (pairs.take i)).1 : ℚ) +
      (((pairs.take i).length - (tpRegion thr (pairs.take i)).1 : ℕ) : ℚ) := by
    have hn : 0 < (tpRegion thr (pairs.take i)).1 +
        ((pairs.take i).length - (tpRegion thr (pairs.take i)).1) := by
      omega
    exact_mod_cast hn
  refine ⟨h2, ?_, ?_, ?_⟩
  · rw [← h']
  · rw [← h']
    exact div_nonneg (by positivity) hq.le
  · rw [← h']
    rw [div_le_one hq]
    simp

theorem addRegion_length_le : ∀ (ws r : List ℕ), r.length ≤ (addRegion r ws).length := by
  intro ws
  induction ws with
  | nil => intro r; exact le_refl _
  | cons w ws ih =>
    intro r
    show r.length ≤ ((w :: ws).foldl (fun r w => if w ∈ r then r else r ++ [w]) r).length
    rw [List.foldl_cons]
    refine le_trans ?_ (ih (if w ∈ r then r else r ++ [w]))
    split <;> simp

theorem foldl_tpStep_length (thr : ℚ) :
    ∀ (l : List (ℚ × List ℕ)) (s : ℕ × List ℕ),
      s.2.length ≤ ((l.foldl (tpStep thr) s).2).length := by
  intro l
  induction l with
  | nil => intro s; exact le_refl _
  | cons p l ih =>
    intro s
    rw [List.foldl_cons]
    refine le_trans ?_ (ih (tpStep thr s p))
    unfold tpStep
    split
    · exact addRegion_length_le p.2 s.2
    · exact le_refl _

theorem tpRegion_take_mono (thr : ℚ) (pairs : List (ℚ × List ℕ)) (k j : ℕ)
    (h : k ≤ j) :
    ((tpRegion thr (pairs.take k)).2).length ≤
      ((tpRegion thr (pairs.take j)).2).length := by
  have hsp : pairs.take j = pairs.take k ++ ((pairs.drop k).take (j - k)) := by
    rw [← List.take_add]
    congr 1
    omega
  rw [hsp]
  unfold tpRegion
  rw [List.foldl_append]
  exact foldl_tpStep_length thr _ _

theorem forall2_mem_right {α β : Type} {P : α → β → Prop} :
    ∀ {l : List α} {r : List β}, List.Forall₂ P l r → ∀ b ∈ r, ∃ a ∈ l, P a b := by
  intro l r h
  induction h with
  | nil => intro b hb; exact absurd hb (by simp)
  | cons hab htail ih =>
    intro b hb
    rcases List.mem_cons.mp hb with h | h
    · exact ⟨_, List.mem_cons_self _ _, h ▸ hab⟩
    · obtain ⟨a, ha, hp⟩ := ih b h
      exact ⟨a, List.mem_cons_of_mem _ ha, hp⟩

theorem pairwise_of_forall2 {α β : Type} {P : α → β → Prop} {S : α → α → Prop}
    {T : β → β → Prop}
    (hco : ∀ a a' b b', P a b → P a' b' → S a a' → T b b') :
    ∀ {l : List α} {r : List β}, List.Forall₂ P l r → l.Pairwise S →
      r.Pairwise T := by
  intro l r h
  induction h with
  | nil => intro _; exact List.Pairwise.nil
  | cons hab htail ih =>
    intro hp
    rcases List.pairwise_cons.mp hp with ⟨hhead, htl⟩
    refine List.Pairwise.cons ?_ (ih htl)
    intro b' hb'
    obtain ⟨a', ha', hpa⟩ := forall2_mem_right htail b' hb'
    exact hco _ _ _ _ hab hpa (hhead a' ha')

theorem foldr_max_le_init (l : List ℚ) : ∀ a : ℚ, a ≤ l.foldr max a := by
  induction l with
  | nil => intro a; exact le_refl a
  | cons x l ih =>
    intro a
    exact le_trans (ih a) (le_max_right x _)

theorem foldr_max_acc (l : List ℚ) :
    ∀ x a : ℚ, l.foldr max (max x a) = max x (l.foldr max a) := by
  induction l with
  | nil => intro x a; rfl
  | cons y l ih =>
    intro x a
    simp only [List.foldr_cons]
    rw [ih x a, max_left_comm]

theorem foldr_max_reverse (l : List ℚ) :
    ∀ a : ℚ, l.reverse.foldr max a = l.foldr max a := by
  induction l with
  | nil => intro a; rfl
  | cons x l ih =>
    intro a
    rw [List.reverse_cons, List.foldr_append]
    simp only [List.foldr_cons, List.foldr_nil]
    rw [ih (max x a), foldr_max_acc]

theorem scanLoop_eq_max (val : ℚ) :
    ∀ (pts : List (ℚ × ℚ)) (p : ℚ), 0 ≤ p →
      (pts.map Prod.fst).Pairwise (fun a b => b ≤ a) →
      scanLoop val pts p =
        max p (((pts.filter (fun q => val ≤ q.1)).map Prod.snd).foldr max 0) := by
  intro pts
  induction pts with
  | nil =>
    intro p hp _
    simp [scanLoop, max_eq_left hp]
  | cons q rest ih =>
    intro p hp hsort
    obtain ⟨r, prc⟩ := q
    rw [List.map_cons] at hsort
    have hhead := (List.pairwise_cons.mp hsort).1
    have htail := (List.pairwise_cons.mp hsort).2
    by_cases hr : r ≥ val
    · have hmax : (if prc ≥ p then prc else p) = max p prc := by
        rcases lt_or_ge prc p with hc | hc
        · rw [if_neg (not_le.mpr hc), max_eq_left hc.le]
        · rw [if_pos hc, max_eq_right hc]
      simp only [scanLoop]
      rw [if_pos hr, hmax, ih (max p prc) (le_trans hp (le_max_left p prc)) htail]
      rw [List.filter_cons_of_pos (by simpa using hr), List.map_cons]
      simp only [List.foldr_cons]
      rw [max_assoc]
    · simp only [scanLoop]
      rw [if_neg hr]
      have hnone : rest.filter (fun q => val ≤ q.1) = [] := by
        rw [List.filter_eq_nil_iff]
        intro q hq
        have hql : q.1 ≤ r := hhead q.1 (List.mem_map_of_mem Prod.fst hq)
        simp only [decide_eq_true_eq]
        intro hcon
        exact hr (le_trans hcon hql)
      rw [List.filter_cons_of_neg (by simpa using hr), hnone]
      simp [max_eq_left hp]

theorem scan_pts_eq (pr : List (ℚ × ℚ)) (val : ℚ)
    (hsorted : (pr.map Prod.snd).Pairwise (· ≤ ·)) :
    scanLoop val (pr.reverse.map (fun p => (p.2, p.1))) 0 =
      maxPrecAtLeast pr val := by
  have hs2 : ((pr.reverse.map (fun p : ℚ × ℚ => (p.2, p.1))).map
      Prod.fst).Pairwise (fun a b => b ≤ a) := by
    rw [List.map_map]
    have hc : (Prod.fst ∘ fun p : ℚ × ℚ => (p.2, p.1)) = Prod.snd := rfl
    rw [hc, List.map_reverse]
    exact List.pairwise_reverse.mpr hsorted
  rw [scanLoop_eq_max val _ 0 le_rfl hs2]
  rw [max_eq_right (foldr_max_le_init _ 0)]
  rw [List.filter_map, List.map_map]
  have hc2 : (Prod.snd ∘ fun p : ℚ × ℚ => (p.2, p.1)) = Prod.fst := rfl
  rw [hc2]
  rw [List.filter_reverse, List.map_reverse, foldr_max_reverse]
  rfl

theorem apFrom_eq (iou : List ℚ) (ar : List (List ℕ)) (nGT : ℕ) (thr : ℚ)
    (pr : List (ℚ × ℚ))
    (hpr : (List.range' 1 (iou.length - 1)).mapM
      (prPoint (iou.zip ar) thr nGT) = some pr) :
    apFrom iou ar nGT thr =
      some ((recall_interp.map (maxPrecAtLeast pr)).sum / 11) := by
  have hf2 := (optMapM_forall2 (prPoint (iou.zip ar) thr nGT) _ _).mp hpr
  have hsorted0 : pr.Pairwise (fun b b' => b.2 ≤ b'.2) := by
    refine pairwise_of_forall2 ?_ hf2 (List.pairwise_lt_range' 1 (iou.length - 1))
    intro a a' b b' hab hab' haa
    obtain ⟨hn, hb2, -, -⟩ := prPoint_eq _ _ _ _ _ hab
    obtain ⟨-, hb2', -, -⟩ := prPoint_eq _ _ _ _ _ hab'
    rw [hb2, hb2']
    have hpos : (0:ℚ) < (nGT : ℚ) := by
      exact_mod_cast Nat.pos_of_ne_zero hn
    refine (div_le_div_iff_of_pos_right hpos).mpr ?_
    exact_mod_cast tpRegion_take_mono thr _ a a' haa.le
  have hsorted : (pr.map Prod.snd).Pairwise (· ≤ ·) :=
    List.pairwise_map.mpr hsorted0
  simp only [apFrom, hpr]
  have hpts : ((pr.map Prod.snd).reverse).zip ((pr.map Prod.fst).reverse) =
      pr.reverse.map (fun p => (p.2, p.1)) := by
    rw [← List.map_reverse Prod.snd, ← List.map_reverse Prod.fst, List.zip_map']
  rw [hpts]
  have hmap : (recall_interp.reverse).map
        (fun val => scanLoop val (pr.reverse.map (fun p => (p.2, p.1))) 0) =
      (recall_interp.reverse).map (maxPrecAtLeast pr) :=
    List.map_congr_left (fun val _ => scan_pts_eq pr val hsorted)
  rw [hmap]
  rw [List.map_reverse (maxPrecAtLeast pr) recall_interp]
  rw [List.sum_reverse, List.length_reverse, List.length_map]
  norm_num [recall_interp]

theorem foldr_max_le (b : ℚ) :
    ∀ (l : List ℚ) (a : ℚ), (∀ x ∈ l, x ≤ b) → a ≤ b → l.foldr max a ≤ b := by
  intro l
  induction l with
  | nil => intro a _ ha; exact ha
  | cons x l ih =>
    intro a hl ha
    simp only [List.foldr_cons]
    exact max_le (hl x (List.mem_cons_self x l))
      (ih a (fun y hy => hl y (List.mem_cons_of_mem x hy)) ha)

/-- C1: given the precision/recall points computed over the prefixes
k = 1..N-1 of the ranked detections, `average_precision_sls` returns the
arithmetic mean over the 11 recall levels 0.0, 0.1, ..., 1.0 of the
interpolated precision at each level, where the interpolated precision at
level r is the maximum precision among all points whose recall is at least r
(and 0 when no point has recall at least r). -/
theorem C1_eleven_point_interpolation (anomalies : List Window)
    (label : List (ℚ × ℕ)) (iou_threshold : ℚ) (iou : List ℚ)
    (ar : List (List ℕ)) (pr : List (ℚ × ℚ))
    (hio : calculate_IOU anomalies (label_anomaly_windows label) =
      some (iou, ar))
    (hpr : (List.range' 1 (iou.length - 1)).mapM
      (prPoint (iou.zip ar) iou_threshold
        (label_anomaly_windows label).length) = some pr) :
    average_precision_sls anomalies label iou_threshold =
      some ((recall_interp.map (maxPrecAtLeast pr)).sum / 11) := by
  simp only [average_precision_sls, hio]
  exact apFrom_eq _ _ _ _ _ hpr

/-- C1 witness: the theorem applied to a two-detection input whose single
precision/recall point is (1, 1). -/
theorem C1_witness :
    calculate_IOU [⟨1, 2⟩, ⟨0, 0⟩]
        (label_anomaly_windows [((0:ℚ), (0:ℕ)), (1, 1), (2, 1), (3, 0)]) =
      some ([1, 0], [[0], []]) ∧
    (List.range' 1 1).mapM (prPoint ([(1:ℚ), 0].zip [[0], []]) (1/20)
      (label_anomaly_windows [((0:ℚ), (0:ℕ)), (1, 1), (2, 1), (3, 0)]).length) =
      some [(1, 1)] ∧
    average_precision_sls [⟨1, 2⟩, ⟨0, 0⟩]
        [((0:ℚ), (0:ℕ)), (1, 1), (2, 1), (3, 0)] (1/20) =
      some ((recall_interp.map (maxPrecAtLeast [(1, 1)])).sum / 11) :=
  ⟨by with_unfolding_all decide, by with_unfolding_all decide,
    C1_eleven_point_interpolation [⟨1, 2⟩, ⟨0, 0⟩]
      [((0:ℚ), (0:ℕ)), (1, 1), (2, 1), (3, 0)] (1/20) [1, 0] [[0], []]
      [(1, 1)] (by with_unfolding_all decide) (by with_unfolding_all decide)⟩

/-- C8 counterexample: a label series starting with 1 gives a derived
ground-truth interval whose start is the raw integer 0; comparing a parsed
detection timestamp against it raises a `TypeError` inside `calculate_IOU`,
so with 2 detections and 1 ground-truth interval `average_precision_sls`
raises (returns `none`) instead of returning a value in [0, 1]. -/
theorem C8_counterexample :
    2 ≤ ([(⟨0, 1⟩ : Window), ⟨2, 3⟩] : List Window).length ∧
    1 ≤ (label_anomaly_windows [((0:ℚ), (1:ℕ)), (1, 1), (2, 0)]).length ∧
    average_precision_sls [⟨0, 1⟩, ⟨2, 3⟩] [((0:ℚ), (1:ℕ)), (1, 1), (2, 0)]
      (1/20) = none := by
  with_unfolding_all decide

/-- C8 (amended): for every input with at least 2 detections and at least 1
derived ground-truth interval on which `average_precision_sls` actually
returns a value, that value lies in the closed interval [0, 1]. -/
theorem C8_ap_bounded (anomalies : List Window) (label : List (ℚ × ℕ))
    (iou_threshold : ℚ) (ap : ℚ) (h2 : 2 ≤ anomalies.length)
    (h1 : 1 ≤ (label_anomaly_windows label).length)
    (h : average_precision_sls anomalies label iou_threshold = some ap) :
    0 ≤ ap ∧ ap ≤ 1 := by
  have hsplit : average_precision_sls anomalies label iou_threshold =
      match calculate_IOU anomalies (label_anomaly_windows label) with
      | none => none
      | some (iou, ar) =>
        apFrom iou ar (label_anomaly_windows label).length iou_threshold := rfl
  rw [hsplit] at h
  cases hio : calculate_IOU anomalies (label_anomaly_windows label) with
  | none =>
    rw [hio] at h
    exact absurd h (by simp)
  | some q =>
    obtain ⟨iou, ar⟩ := q
    rw [hio] at h
    have hAp : apFrom iou ar (label_anomaly_windows label).length
        iou_threshold = some ap := h
    cases hpr : (List.range' 1 (iou.length - 1)).mapM
        (prPoint (iou.zip ar) iou_threshold
          (label_anomaly_windows label).length) with
    | none =>
      have hnone : apFrom iou ar (label_anomaly_windows label).length
          iou_threshold = none := by
        unfold apFrom
        rw [hpr]
      rw [hnone] at hAp
      exact absurd hAp (by simp)
    | some pr =>
      rw [apFrom_eq _ _ _ _ _ hpr] at hAp
      injection hAp with h'
      have hf2 := (optMapM_forall2 _ _ _).mp hpr
      have hbound : ∀ val ∈ recall_interp,
          0 ≤ maxPrecAtLeast pr val ∧ maxPrecAtLeast pr val ≤ 1 := by
        intro val _
        refine ⟨foldr_max_le_init _ 0, ?_⟩
        refine foldr_max_le 1 _ 0 ?_ (by norm_num)
        intro x hx
        obtain ⟨q, hq, hqx⟩ := List.mem_map.mp hx
        obtain ⟨a, -, hap⟩ := forall2_mem_right hf2 q (List.mem_of_mem_filter hq)
        obtain ⟨-, -, -, hle⟩ := prPoint_eq _ _ _ _ _ hap
        rw [← hqx]
        exact hle
      set S := (recall_interp.map (maxPrecAtLeast pr)).sum with hS
      have hlen : (recall_interp.map (maxPrecAtLeast pr)).length = 11 := by
        simp [recall_interp]
      have hS0 : 0 ≤ S := by
        rw [hS]
        refine List.sum_nonneg ?_
        intro x hx
        obtain ⟨val, hval, hvx⟩ := List.mem_map.mp hx
        rw [← hvx]
        exact (hbound val hval).1
      have hS1 : S ≤ 11 := by
        rw [hS]
        have hcard := List.sum_le_card_nsmul
          (recall_interp.map (maxPrecAtLeast pr)) 1 ?_
        · rw [hlen] at hcard
          simpa using hcard
        · intro x hx
          obtain ⟨val, hval, hvx⟩ := List.mem_map.mp hx
          rw [← hvx]
          exact (hbound val hval).2
      rw [← h']
      constructor
      · positivity
      · rw [div_le_one (by norm_num)]
        linarith

/-- C8 witness: the amended theorem applied to a concrete input with two
detections and one ground-truth interval where the returned AP is 1. -/
theorem C8_ap_bounded_witness :
    2 ≤ ([(⟨1, 2⟩ : Window), ⟨0, 0⟩] : List Window).length ∧
    1 ≤ (label_anomaly_windows
      [((0:ℚ), (0:ℕ)), (1, 1), (2, 1), (3, 0)]).length ∧
    (0 ≤ (1:ℚ) ∧ (1:ℚ) ≤ 1) :=
  ⟨by decide, by decide,
    C8_ap_bounded [⟨1, 2⟩, ⟨0, 0⟩] [((0:ℚ), (0:ℕ)), (1, 1), (2, 1), (3, 0)]
      (1/20) 1 (by decide) (by decide) (by with_unfolding_all decide)⟩
/-- A successful run of the per-detection loop means no inner comparison
raised on any ground-truth window. -/
theorem detLoop_ne_none (s e : ℚ) :
    ∀ (lw : List (PyVal × PyVal)) (j : ℕ) (x : ℚ) (r : List ℕ)
      (p : ℚ × List ℕ), detLoop s e lw j x r = some p →
      ∀ g ∈ lw, pairContrib s e g.1 g.2 ≠ none := by
  intro lw
  induction lw with
  | nil => intro j x r p _ g hg; exact absurd hg (by simp)
  | cons g0 rest ih =>
    intro j x r p h g hg
    cases hpc : pairContrib s e g0.1 g0.2 with
    | none => rw [detLoop, hpc] at h; exact absurd h (by simp)
    | some o =>
      rcases List.mem_cons.mp hg with hgg | hgg
      · rw [hgg, hpc]
        simp
      · rw [detLoop, hpc] at h
        cases o with
        | none => exact ih _ _ _ _ h g hgg
        | some c => exact ih _ _ _ _ h g hgg

/-- Closed form of the per-detection loop when no pair raises: the iou is
the sum of the per-window contributions and the covered list is the list of
matched indices in order. -/
theorem detLoop_closed (s e : ℚ) :
    ∀ (lw : List (PyVal × PyVal)),
      (∀ g ∈ lw, pairContrib s e g.1 g.2 ≠ none) →
      ∀ (j : ℕ) (x : ℚ) (r : List ℕ),
        detLoop s e lw j x r =
          some (x + (lw.map (cVal s e)).sum, r ++ idxList s e lw j) := by
  intro lw
  induction lw with
  | nil =>
    intro _ j x r
    simp [detLoop, idxList]
  | cons g rest ih =>
    intro hok j x r
    have hrest := fun g' hg' => hok g' (List.mem_cons_of_mem g hg')
    cases hpc : pairContrib s e g.1 g.2 with
    | none => exact absurd hpc (hok g (List.mem_cons_self g rest))
    | some o =>
      cases o with
      | none =>
        rw [detLoop, hpc]
        show detLoop s e rest (j + 1) x r = _
        rw [ih hrest (j + 1) x r]
        have hcv : cVal s e g = 0 := by
          unfold cVal
          rw [hpc]
        have hch : cHit s e g = false := by
          unfold cHit
          rw [hpc]
        simp [idxList, hcv, hch]
      | some c =>
        rw [detLoop, hpc]
        show detLoop s e rest (j + 1) (x + c) (r ++ [j]) = _
        rw [ih hrest (j + 1) (x + c) (r ++ [j])]
        have hcv : cVal s e g = c := by
          unfold cVal
          rw [hpc]
        have hch : cHit s e g = true := by
          unfold cHit
          rw [hpc]
        simp [idxList, hcv, hch, add_assoc]

/-- Membership in the matched-index list: exactly the in-range offsets whose
ground-truth window matches one of the three geometric cases. -/
theorem idxList_mem (s e : ℚ) :
    ∀ (lw : List (PyVal × PyVal)) (j k : ℕ),
      k ∈ idxList s e lw j ↔
        (j ≤ k ∧ k - j < lw.length ∧
          cHit s e (lw.getD (k - j) (PyVal.int 0, PyVal.int 0)) = true) := by
  intro lw
  induction lw with
  | nil => intro j k; simp [idxList]
  | cons g rest ih =>
    intro j k
    simp only [idxList, List.mem_append]
    constructor
    · rintro (h | h)
      · by_cases hc : cHit s e g
        · rw [if_pos hc] at h
          rw [List.mem_singleton] at h
          subst h
          refine ⟨le_refl k, by simp, ?_⟩
          simpa using hc
        · rw [if_neg hc] at h
          exact absurd h (by simp)
      · obtain ⟨hj1, hlt, hhit⟩ := (ih (j + 1) k).mp h
        refine ⟨by omega, by simp; omega, ?_⟩
        rw [show k - j = (k - (j + 1)) + 1 by omega]
        simpa using hhit
    · rintro ⟨hjk, hlt, hhit⟩
      rcases Nat.eq_or_lt_of_le hjk with heq | hlt2
      · subst heq
        rw [Nat.sub_self] at hhit
        simp only [List.getD_cons_zero] at hhit
        left
        rw [if_pos hhit]
        exact List.mem_singleton.mpr rfl
      · right
        refine (ih (j + 1) k).mpr ⟨by omega, ?_, ?_⟩
        · simp at hlt
          omega
        · rw [show k - j = (k - (j + 1)) + 1 by omega] at hhit
          simpa using hhit

/-- The matched-index list has no duplicates. -/
theorem idxList_nodup (s e : ℚ) :
    ∀ (lw : List (PyVal × PyVal)) (j : ℕ), (idxList s e lw j).Nodup := by
  intro lw
  induction lw with
  | nil => intro j; simp [idxList]
  | cons g rest ih =>
    intro j
    simp only [idxList]
    by_cases hc : cHit s e g
    · rw [if_pos hc]
      refine List.Nodup.cons ?_ (ih (j + 1))
      intro hmem
      simp at hmem
      have := ((idxList_mem s e rest (j + 1) j).mp hmem).1
      omega
    · rw [if_neg hc]
      simpa using ih (j + 1)

/-- The natural extension of a permutation of `Fin n` is injective. -/
theorem sigN_inj (n : ℕ) (σ : Equiv.Perm (Fin n)) :
    Function.Injective (sigN n σ) := by
  intro a b h
  unfold sigN at h
  split_ifs at h with ha hb hb
  · have h2 := σ.injective (Fin.val_injective h)
    simpa using congrArg Fin.val h2
  · exact absurd h (by have := (σ ⟨a, ha⟩).isLt; omega)
  · exact absurd h (by have := (σ ⟨b, hb⟩).isLt; omega)
  · exact h

/-- The natural extension of a permutation maps below `n` to below `n`. -/
theorem sigN_lt (n : ℕ) (σ : Equiv.Perm (Fin n)) (k : ℕ) (hk : k < n) :
    sigN n σ k < n := by
  unfold sigN
  rw [dif_pos hk]
  exact (σ ⟨k, hk⟩).isLt

/-- The natural extension applied to the inverse image gives the value
back. -/
theorem sigN_symm_apply (n : ℕ) (σ : Equiv.Perm (Fin n)) (b : ℕ) (hb : b < n) :
    sigN n σ ((σ.symm ⟨b, hb⟩ : Fin n) : ℕ) = b := by
  unfold sigN
  rw [dif_pos (σ.symm ⟨b, hb⟩).isLt]
  rw [Fin.eta, Equiv.apply_symm_apply]

/-- Two finsets related by renaming along a permutation of `Fin n` have the
same cardinality. -/
theorem card_eq_of_sigN_rel (n : ℕ) (σ : Equiv.Perm (Fin n)) (S S' : Finset ℕ)
    (hS : ∀ j ∈ S, j < n)
    (hrel : ∀ j, j ∈ S' ↔ (j < n ∧ sigN n σ j ∈ S)) :
    S'.card = S.card := by
  refine Finset.card_bij (fun a _ => sigN n σ a) ?_ ?_ ?_
  · intro a ha
    exact ((hrel a).mp ha).2
  · intro a ha b hb hab
    exact sigN_inj n σ hab
  · intro b hb
    have hbn : b < n := hS b hb
    refine ⟨((σ.symm ⟨b, hbn⟩ : Fin n) : ℕ), ?_, sigN_symm_apply n σ b hbn⟩
    rw [hrel]
    refine ⟨(σ.symm ⟨b, hbn⟩).isLt, ?_⟩
    rw [sigN_symm_apply n σ b hbn]
    exact hb

/-- The deduplicating append keeps the region list duplicate-free and its
underlying set is the union. -/
theorem addRegion_spec : ∀ (ws r : List ℕ), r.Nodup →
    (addRegion r ws).Nodup ∧
    (addRegion r ws).toFinset = r.toFinset ∪ ws.toFinset := by
  intro ws
  induction ws with
  | nil =>
    intro r hr
    exact ⟨hr, by simp [addRegion]⟩
  | cons w ws ih =>
    intro r hr
    have hstep : addRegion r (w :: ws) =
        addRegion (if w ∈ r then r else r ++ [w]) ws := by
      simp only [addRegion, List.foldl_cons]
    have hr' : (if w ∈ r then r else r ++ [w]).Nodup := by
      split_ifs with hw
      · exact hr
      · simp [List.nodup_append, hr, hw]
    have hfs : (if w ∈ r then r else r ++ [w]).toFinset =
        r.toFinset ∪ {w} := by
      split_ifs with hw
      · rw [Finset.union_comm]
        exact (Finset.union_eq_right.mpr (by simpa using hw)).symm
      · simp [List.toFinset_append]
    obtain ⟨hn, hf⟩ := ih _ hr'
    rw [hstep]
    refine ⟨hn, ?_⟩
    rw [hf, hfs]
    rw [List.toFinset_cons, Finset.insert_eq]
    rw [Finset.union_assoc]

/-- The prefix scan counts over-threshold detections and accumulates the
union of their covered index sets, without duplicates. -/
theorem tpRegion_spec (thr : ℚ) :
    ∀ (l : List (ℚ × List ℕ)) (a : ℕ) (r : List ℕ), r.Nodup →
      (l.foldl (tpStep thr) (a, r)).1 =
        a + l.countP (fun p => decide (p.1 > thr)) ∧
      ((l.foldl (tpStep thr) (a, r)).2).Nodup ∧
      ((l.foldl (tpStep thr) (a, r)).2).toFinset =
        regionFinset thr l r.toFinset := by
  intro l
  induction l with
  | nil =>
    intro a r hr
    refine ⟨by simp, hr, by simp [regionFinset]⟩
  | cons p l ih =>
    intro a r hr
    simp only [List.foldl_cons]
    by_cases hp : p.1 > thr
    · have hstep : tpStep thr (a, r) p = (a + 1, addRegion r p.2) := by
        unfold tpStep
        rw [if_pos hp]
      obtain ⟨hn, hfs⟩ := addRegion_spec p.2 r hr
      obtain ⟨ih1, ih2, ih3⟩ := ih (a + 1) (addRegion r p.2) hn
      rw [hstep]
      refine ⟨?_, ih2, ?_⟩
      · rw [ih1, List.countP_cons_of_pos _ _ (by simpa using hp)]
        omega
      · rw [ih3, hfs]
        unfold regionFinset
        simp only [List.foldl_cons]
        rw [if_pos hp]
    · have hstep : tpStep thr (a, r) p = (a, r) := by
        unfold tpStep
        rw [if_neg hp]
      obtain ⟨ih1, ih2, ih3⟩ := ih a r hr
      rw [hstep]
      refine ⟨?_, ih2, ?_⟩
      · rw [ih1, List.countP_cons_of_neg _ _ (by simpa using hp)]
      · rw [ih3]
        unfold regionFinset
        simp only [List.foldl_cons]
        rw [if_neg hp]

/-- The covered-set fold preserves the index-renaming relation induced by a
permutation of the ground-truth list. -/
theorem regionFinset_rel (thr : ℚ) (n : ℕ) (σ : Equiv.Perm (Fin n)) :
    ∀ {P P' : List (ℚ × List ℕ)},
      List.Forall₂ (fun p p' => p.1 = p'.1 ∧
        (∀ k, k ∈ p'.2 ↔ (k < n ∧ sigN n σ k ∈ p.2)) ∧
        (∀ k ∈ p.2, k < n)) P P' →
      ∀ (S S' : Finset ℕ), (∀ j ∈ S, j < n) →
        (∀ j, j ∈ S' ↔ (j < n ∧ sigN n σ j ∈ S)) →
        (∀ j ∈ regionFinset thr P S, j < n) ∧
        (∀ j, j ∈ regionFinset thr P' S' ↔
          (j < n ∧ sigN n σ j ∈ regionFinset thr P S)) := by
  intro P P' h
  induction h with
  | nil =>
    intro S S' hS hrel
    exact ⟨hS, hrel⟩
  | @cons p p' P P' hpp htail ih =>
    intro S S' hS hrel
    obtain ⟨hfst, hmem, hbnd⟩ := hpp
    unfold regionFinset
    simp only [List.foldl_cons]
    rw [show (regionFinset thr P) = fun S => regionFinset thr P S from rfl] at ih
    by_cases hthr : p.1 > thr
    · have hthr' : p'.1 > thr := hfst ▸ hthr
      rw [if_pos hthr, if_pos hthr']
      refine ih (S ∪ p.2.toFinset) (S' ∪ p'.2.toFinset) ?_ ?_
      · intro j hj
        rcases Finset.mem_union.mp hj with hj | hj
        · exact hS j hj
        · exact hbnd j (List.mem_toFinset.mp hj)
      · intro j
        rw [Finset.mem_union, Finset.mem_union, List.mem_toFinset,
          List.mem_toFinset, hrel j, hmem j]
        constructor
        · rintro (⟨hn1, hs⟩ | ⟨hn1, hs⟩)
          · exact ⟨hn1, Or.inl hs⟩
          · exact ⟨hn1, Or.inr hs⟩
        · rintro ⟨hn1, hs | hs⟩
          · exact Or.inl ⟨hn1, hs⟩
          · exact Or.inr ⟨hn1, hs⟩
    · have hthr' : ¬ p'.1 > thr := hfst ▸ hthr
      rw [if_neg hthr, if_neg hthr']
      exact ih S S' hS hrel

/-- Lists related pointwise with equal first components have equal
over-threshold counts. -/
theorem countP_eq_of_forall2 (thr : ℚ)
    {Rel : (ℚ × List ℕ) → (ℚ × List ℕ) → Prop}
    (hfst : ∀ p p', Rel p p' → p.1 = p'.1) :
    ∀ {P P' : List (ℚ × List ℕ)}, List.Forall₂ Rel P P' →
      P'.countP (fun p => decide (p.1 > thr)) =
        P.countP (fun p => decide (p.1 > thr)) := by
  intro P P' h
  induction h with
  | nil => rfl
  | @cons p p' P P' hpp htail ih =>
    rw [List.countP_cons, List.countP_cons, ih, hfst p p' hpp]

/-- Zipping a common left list with two pointwise-related lists gives
pointwise-related pair lists. -/
theorem forall2_zip_left {R : List ℕ → List ℕ → Prop} :
    ∀ (xs : List ℚ) {l l' : List (List ℕ)}, List.Forall₂ R l l' →
      List.Forall₂ (fun p p' => p.1 = p'.1 ∧ R p.2 p'.2) (xs.zip l)
        (xs.zip l') := by
  intro xs
  induction xs with
  | nil =>
    intro l l' _
    simp only [List.zip_nil_left]
    exact List.Forall₂.nil
  | cons x xs ih =>
    intro l l' h
    cases h with
    | nil => exact List.Forall₂.nil
    | cons hr htail => exact List.Forall₂.cons ⟨rfl, hr⟩ (ih htail)

/-- A precision/recall point is unchanged when every covered list is renamed
along a permutation of the ground-truth indices: the true-positive count
depends only on the iou values and the deduplicated covered-set size is
preserved by the renaming. -/
theorem prPoint_perm (thr : ℚ) (n : ℕ) (σ : Equiv.Perm (Fin n))
    (iou : List ℚ) (ar ar' : List (List ℕ))
    (hrel : List.Forall₂ (fun l l' =>
      (∀ k, k ∈ l' ↔ (k < n ∧ sigN n σ k ∈ l)) ∧ (∀ k ∈ l, k < n)) ar ar')
    (i : ℕ) :
    prPoint (iou.zip ar') thr n i = prPoint (iou.zip ar) thr n i := by
  have hzip := List.forall₂_take i (forall2_zip_left iou hrel)
  have hlen : ((iou.zip ar').take i).length = ((iou.zip ar).take i).length :=
    (List.Forall₂.length_eq hzip).symm
  obtain ⟨t1, t2, t3⟩ := tpRegion_spec thr ((iou.zip ar).take i) 0 []
    List.nodup_nil
  obtain ⟨u1, u2, u3⟩ := tpRegion_spec thr ((iou.zip ar').take i) 0 []
    List.nodup_nil
  have hcnt := countP_eq_of_forall2 thr (fun p p' h => h.1) hzip
  have htp : (tpRegion thr ((iou.zip ar').take i)).1 =
      (tpRegion thr ((iou.zip ar).take i)).1 := by
    unfold tpRegion
    rw [t1, u1, hcnt]
  obtain ⟨hbound, hmemrel⟩ := regionFinset_rel thr n σ hzip ∅ ∅ (by simp)
    (by simp)
  have hcard : (regionFinset thr ((iou.zip ar').take i) ∅).card =
      (regionFinset thr ((iou.zip ar).take i) ∅).card :=
    card_eq_of_sigN_rel n σ _ _ hbound hmemrel
  have hreg : (tpRegion thr ((iou.zip ar').take i)).2.length =
      (tpRegion thr ((iou.zip ar).take i)).2.length := by
    unfold tpRegion
    rw [← List.toFinset_card_of_nodup t2, ← List.toFinset_card_of_nodup u2,
      t3, u3]
    simpa using hcard
  simp only [prPoint, htp, hlen, hreg]

/-- Permuting the ground-truth list leaves the iou value of a detection
unchanged (the sum commutes) and renames its covered list along the
permutation. -/
theorem detLoop_perm (s e : ℚ) (gt : List (PyVal × PyVal))
    (σ : Equiv.Perm (Fin gt.length))
    (hok : ∀ g ∈ gt, pairContrib s e g.1 g.2 ≠ none)
    (x : ℚ) (r : List ℕ)
    (h : detLoop s e gt 0 0 [] = some (x, r)) :
    detLoop s e
        (List.ofFn (fun i : Fin gt.length =>
          gt.getD (σ i) (PyVal.int 0, PyVal.int 0))) 0 0 [] =
      some (x, idxList s e
        (List.ofFn (fun i : Fin gt.length =>
          gt.getD (σ i) (PyVal.int 0, PyVal.int 0))) 0) ∧
    (∀ k, k ∈ idxList s e
        (List.ofFn (fun i : Fin gt.length =>
          gt.getD (σ i) (PyVal.int 0, PyVal.int 0))) 0 ↔
      (k < gt.length ∧ sigN gt.length σ k ∈ r)) ∧
    (∀ k ∈ r, k < gt.length) ∧ r.Nodup := by
  set gt' : List (PyVal × PyVal) :=
    List.ofFn (fun i : Fin gt.length =>
      gt.getD (σ i) (PyVal.int 0, PyVal.int 0)) with hgt'
  have hglen : gt'.length = gt.length := by
    rw [hgt', List.length_ofFn]
  have hget' : ∀ (k : ℕ) (hk : k < gt.length),
      gt'.getD k (PyVal.int 0, PyVal.int 0) =
        gt.getD ((σ ⟨k, hk⟩ : Fin gt.length) : ℕ) (PyVal.int 0, PyVal.int 0) := by
    intro k hk
    rw [hgt', List.getD_eq_getElem _ _ (by simpa using hk), List.getElem_ofFn]
  have hok' : ∀ g ∈ gt', pairContrib s e g.1 g.2 ≠ none := by
    intro g hg
    rw [hgt'] at hg
    obtain ⟨i, hi⟩ := Set.mem_range.mp ((List.mem_ofFn _ _).mp hg)
    have hmem : gt.getD ((σ i : Fin gt.length) : ℕ)
        (PyVal.int 0, PyVal.int 0) ∈ gt := by
      rw [List.getD_eq_getElem _ _ (σ i).isLt]
      exact List.getElem_mem _
    rw [← hi]
    exact hok _ hmem
  have hclosed := detLoop_closed s e gt hok 0 0 []
  rw [h] at hclosed
  injection hclosed with hc
  injection hc with hx hr
  have hclosed' := detLoop_closed s e gt' hok' 0 0 []
  have hsum : (gt'.map (cVal s e)).sum = (gt.map (cVal s e)).sum := by
    rw [hgt', List.map_ofFn, List.sum_ofFn]
    conv_rhs => rw [← List.ofFn_get gt, List.map_ofFn, List.sum_ofFn]
    have hcomp : (∑ i : Fin gt.length, (cVal s e ∘ fun i : Fin gt.length =>
        gt.getD (σ i) (PyVal.int 0, PyVal.int 0)) i) =
        ∑ i : Fin gt.length, (fun j : Fin gt.length =>
          cVal s e (gt.getD (j : ℕ) (PyVal.int 0, PyVal.int 0))) (σ i) := rfl
    rw [hcomp, Equiv.sum_comp σ (fun j : Fin gt.length =>
      cVal s e (gt.getD (j : ℕ) (PyVal.int 0, PyVal.int 0)))]
    refine Finset.sum_congr rfl ?_
    intro i _
    simp only [Function.comp_apply]
    rw [List.getD_eq_getElem _ _ i.isLt, List.get_eq_getElem]
  refine ⟨?_, ?_, ?_, ?_⟩
  · rw [hclosed', hsum, ← hx]
    simp
  · intro k
    rw [idxList_mem]
    simp only [Nat.sub_zero, Nat.zero_le, true_and, hglen]
    constructor
    · rintro ⟨hk, hhit⟩
      have hsig : sigN gt.length σ k = ((σ ⟨k, hk⟩ : Fin gt.length) : ℕ) := by
        unfold sigN
        rw [dif_pos hk]
      refine ⟨hk, ?_⟩
      rw [hr]
      simp only [List.nil_append]
      rw [idxList_mem]
      simp only [Nat.sub_zero, Nat.zero_le, true_and]
      refine ⟨?_, ?_⟩
      · rw [hsig]
        exact (σ ⟨k, hk⟩).isLt
      · rw [hsig, ← hget' k hk]
        exact hhit
    · rintro ⟨hk, hmem⟩
      refine ⟨hk, ?_⟩
      rw [hr] at hmem
      simp only [List.nil_append] at hmem
      rw [idxList_mem] at hmem
      simp only [Nat.sub_zero] at hmem
      obtain ⟨-, -, hhit⟩ := hmem
      have hsig : sigN gt.length σ k = ((σ ⟨k, hk⟩ : Fin gt.length) : ℕ) := by
        unfold sigN
        rw [dif_pos hk]
      rw [hsig] at hhit
      rw [hget' k hk]
      exact hhit
  · intro k hkr
    rw [hr] at hkr
    simp only [List.nil_append] at hkr
    rw [idxList_mem] at hkr
    simp only [Nat.sub_zero] at hkr
    exact hkr.2.1
  · rw [hr]
    simp only [List.nil_append]
    exact idxList_nodup s e gt 0

/-- `calculate_IOU` under a permutation of the ground-truth list: same iou
values, covered lists renamed by the permutation. -/
theorem calculate_IOU_perm (gt : List (PyVal × PyVal))
    (σ : Equiv.Perm (Fin gt.length)) :
    ∀ (anomalies : List Window) (iou : List ℚ) (ar : List (List ℕ)),
      calculate_IOU anomalies gt = some (iou, ar) →
      ∃ ar', calculate_IOU anomalies
          (List.ofFn (fun i : Fin gt.length =>
            gt.getD (σ i) (PyVal.int 0, PyVal.int 0))) = some (iou, ar') ∧
        List.Forall₂ (fun l l' => (∀ k, k ∈ l' ↔
          (k < gt.length ∧ sigN gt.length σ k ∈ l)) ∧
          (∀ k ∈ l, k < gt.length)) ar ar' := by
  intro anomalies
  induction anomalies with
  | nil =>
    intro iou ar h
    simp only [calculate_IOU, Option.some.injEq, Prod.mk.injEq] at h
    rw [← h.1, ← h.2]
    exact ⟨[], rfl, List.Forall₂.nil⟩
  | cons a rest ih =>
    intro iou ar h
    simp only [calculate_IOU] at h
    cases hd : detLoop a.start a.«end» gt 0 0 [] with
    | none => rw [hd] at h; exact absurd h (by simp)
    | some p =>
      rw [hd] at h
      obtain ⟨x, r⟩ := p
      cases hrest : calculate_IOU rest gt with
      | none => rw [hrest] at h; exact absurd h (by simp)
      | some q =>
        rw [hrest] at h
        obtain ⟨iou0, ar0⟩ := q
        simp only [Option.some.injEq, Prod.mk.injEq] at h
        have hok := detLoop_ne_none a.start a.«end» gt 0 0 [] (x, r) hd
        obtain ⟨hd', hmem, hbnd, -⟩ :=
          detLoop_perm a.start a.«end» gt σ hok x r hd
        obtain ⟨ar0', hio', hf2⟩ := ih iou0 ar0 hrest
        refine ⟨idxList a.start a.«end»
          (List.ofFn (fun i : Fin gt.length =>
            gt.getD (σ i) (PyVal.int 0, PyVal.int 0))) 0 :: ar0', ?_, ?_⟩
        · simp only [calculate_IOU, hd', hio']
          rw [← h.1]
        · rw [← h.2]
          exact List.Forall₂.cons ⟨hmem, hbnd⟩ hf2

/-- Congruence for `mapM` over `Option`. -/
theorem mapM_congr {α β : Type} (f g : α → Option β) :
    ∀ (l : List α), (∀ a ∈ l, f a = g a) → l.mapM f = l.mapM g := by
  intro l
  induction l with
  | nil => intro _; rfl
  | cons a l ih =>
    intro h
    rw [List.mapM_cons, List.mapM_cons, h a (List.mem_cons_self a l),
      ih (fun b hb => h b (List.mem_cons_of_mem a hb))]

/-- C7: for every detection table, label series, IoU threshold and
permutation of the derived ground-truth interval list, `calculate_IOU`
returns the same IoU value for each detection, with covered lists equal up
to renaming indices by the permutation, and the precision/recall points and
the final AP computed downstream from them are unchanged. -/
theorem C7_ground_truth_permutation (anomalies : List Window)
    (label : List (ℚ × ℕ)) (iou_threshold : ℚ)
    (gt : List (PyVal × PyVal)) (hgt : gt = label_anomaly_windows label)
    (σ : Equiv.Perm (Fin gt.length))
    (iou : List ℚ) (ar : List (List ℕ))
    (hio : calculate_IOU anomalies gt = some (iou, ar)) :
    ∃ ar',
      calculate_IOU anomalies (List.ofFn (fun i : Fin gt.length =>
        gt.getD (σ i) (PyVal.int 0, PyVal.int 0))) = some (iou, ar') ∧
      List.Forall₂ (fun l l' => (∀ k, k ∈ l' ↔
        (k < gt.length ∧ sigN gt.length σ k ∈ l)) ∧
        (∀ k ∈ l, k < gt.length)) ar ar' ∧
      (List.range' 1 (iou.length - 1)).mapM
          (prPoint (iou.zip ar') iou_threshold gt.length) =
        (List.range' 1 (iou.length - 1)).mapM
          (prPoint (iou.zip ar) iou_threshold gt.length) ∧
      apFrom iou ar' gt.length iou_threshold =
        apFrom iou ar gt.length iou_threshold := by
  obtain ⟨ar', hio', hf2⟩ := calculate_IOU_perm gt σ anomalies iou ar hio
  have hpp := prPoint_perm iou_threshold gt.length σ iou ar ar' hf2
  have hmm := mapM_congr _ _ (List.range' 1 (iou.length - 1))
    (fun i _ => hpp i)
  refine ⟨ar', hio', hf2, hmm, ?_⟩
  unfold apFrom
  rw [hmm]

/-- C7 witness: the theorem applied to two ground-truth windows swapped by
the transposition of their indices. -/
theorem C7_ground_truth_permutation_witness :
    ∃ ar',
      calculate_IOU [⟨1, 1⟩, ⟨3, 3⟩]
        (List.ofFn (fun i : Fin ([((PyVal.time 1), (PyVal.time 1)),
            ((PyVal.time 3), (PyVal.time 3))] : List (PyVal × PyVal)).length =>
          ([((PyVal.time 1), (PyVal.time 1)),
            ((PyVal.time 3), (PyVal.time 3))] : List (PyVal × PyVal)).getD
            ((Equiv.swap (⟨0, by decide⟩ : Fin ([((PyVal.time 1), (PyVal.time 1)),
              ((PyVal.time 3), (PyVal.time 3))] : List (PyVal × PyVal)).length)
              ⟨1, by decide⟩) i) (PyVal.int 0, PyVal.int 0))) =
        some ([1, 1], ar') ∧
      List.Forall₂ (fun l l' => (∀ k, k ∈ l' ↔
        (k < ([((PyVal.time 1), (PyVal.time 1)),
          ((PyVal.time 3), (PyVal.time 3))] : List (PyVal × PyVal)).length ∧
          sigN ([((PyVal.time 1), (PyVal.time 1)),
            ((PyVal.time 3), (PyVal.time 3))] : List (PyVal × PyVal)).length
            (Equiv.swap ⟨0, by decide⟩ ⟨1, by decide⟩) k ∈ l)) ∧
        (∀ k ∈ l, k < ([((PyVal.time 1), (PyVal.time 1)),
          ((PyVal.time 3), (PyVal.time 3))] : List (PyVal × PyVal)).length))
        [[0], [1]] ar' ∧
      (List.range' 1 (([(1 : ℚ), 1]).length - 1)).mapM
          (prPoint (([(1 : ℚ), 1]).zip ar') (1/20)
            ([((PyVal.time 1), (PyVal.time 1)),
              ((PyVal.time 3), (PyVal.time 3))] : List (PyVal × PyVal)).length) =
        (List.range' 1 (([(1 : ℚ), 1]).length - 1)).mapM
          (prPoint (([(1 : ℚ), 1]).zip [[0], [1]]) (1/20)
            ([((PyVal.time 1), (PyVal.time 1)),
              ((PyVal.time 3), (PyVal.time 3))] : List (PyVal × PyVal)).length) ∧
      apFrom [1, 1] ar'
          ([((PyVal.time 1), (PyVal.time 1)),
            ((PyVal.time 3), (PyVal.time 3))] : List (PyVal × PyVal)).length
          (1/20) =
        apFrom [1, 1] [[0], [1]]
          ([((PyVal.time 1), (PyVal.time 1)),
            ((PyVal.time 3), (PyVal.time 3))] : List (PyVal × PyVal)).length
          (1/20) :=
  C7_ground_truth_permutation [⟨1, 1⟩, ⟨3, 3⟩]
    [((0:ℚ), (0:ℕ)), (1, 1), (2, 0), (3, 1), (4, 0)] (1/20)
    [((PyVal.time 1), (PyVal.time 1)), ((PyVal.time 3), (PyVal.time 3))]
    (by decide) (Equiv.swap ⟨0, by decide⟩ ⟨1, by decide⟩) [1, 1] [[0], [1]]
    (by with_unfolding_all decide)
